import Mathlib

/-!
Shallow embedding of the transcription pipeline of `local-ai-transcription`
(`src/main/index.ts` and `src/preload/index.ts`), together with theorems
checking the natural-language specification against it.

JavaScript numbers that can be `NaN` are modelled as `Option ℚ`
(`none` = `NaN`), with `NaN`-propagating arithmetic; JavaScript
`undefined` values flowing into string positions are modelled as
`Option String`.
-/

attribute [local semireducible] Rat.add Rat.mul Rat.sub Rat.inv Rat.ofScientific

namespace LocalAI

/-- Whitespace recognised by the model of JS `trim` / `\s`
(the common ASCII whitespace characters; the full JS class also
contains Unicode space separators, which never appear here). -/
def jsWs (c : Char) : Bool :=
  c = ' ' || c = '\t' || c = '\n' || c = '\r' || c = '\x0b' || c = '\x0c'

/-- Remove trailing characters satisfying `jsWs`
(defined by structural recursion so that the head is visibly preserved). -/
def trimR : List Char → List Char
  | [] => []
  | c :: rest =>
      let r := trimR rest
      if r = [] && jsWs c then [] else c :: r

/-- Model of JS `String.prototype.trim`: drop leading and trailing whitespace. -/
def trimChars (l : List Char) : List Char :=
  trimR (l.dropWhile jsWs)

/-- Model of JS `replace(/\s+/g, ' ')`: each maximal run of whitespace
characters becomes a single space. -/
def collapseWs : List Char → List Char
  | [] => []
  | [c] => if jsWs c then [' '] else [c]
  | c :: d :: rest =>
      if jsWs c && jsWs d then collapseWs (d :: rest)
      else (if jsWs c then ' ' else c) :: collapseWs (d :: rest)

/-- Model of JS `String.prototype.split` with a one-character separator:
always returns at least one (possibly empty) field. -/
def splitOnChar (sep : Char) : List Char → List (List Char)
  | [] => [[]]
  | c :: rest =>
      match splitOnChar sep rest with
      | [] => [[]]
      | h :: t => if c = sep then [] :: h :: t else (c :: h) :: t

/-- Numeric value of a list of decimal digits. -/
def digitsToNat (l : List Char) : ℕ :=
  l.foldl (fun n c => 10 * n + (c.toNat - 48)) 0

def allDigits (l : List Char) : Bool :=
  l.all fun c => '0' ≤ c && c ≤ '9'

/-- Model of the JS `Number` builtin on the string shapes reachable here:
whitespace-trimmed empty string is `0`; signed decimal literals take their
value; anything else (in particular a string with a stray `,` or letters)
is `NaN` (`none`).  Hex/exponent forms are not modelled — they cannot
occur in `HH:MM:SS,mmm` fields. -/
def jsNumber (l : List Char) : Option ℚ :=
  let t := trimChars l
  if t = [] then some 0
  else
    let (sign, body) : ℚ × List Char :=
      match t with
      | '-' :: r => (-1, r)
      | '+' :: r => (1, r)
      | _ => (1, t)
    match splitOnChar '.' body with
    | [ip] =>
        if ip ≠ [] && allDigits ip then some (sign * digitsToNat ip) else none
    | [ip, fp] =>
        if (ip ≠ [] || fp ≠ []) && allDigits ip && allDigits fp then
          some (sign * ((digitsToNat ip : ℚ) + (digitsToNat fp : ℚ) / 10 ^ fp.length))
        else none
    | _ => none

/-- Model of the JS `parseInt` builtin applied to a possibly-`undefined`
string: `parseInt(undefined)` is `NaN`; on a string, leading whitespace and
an optional sign are consumed and the maximal run of leading digits gives
the value, `NaN` when there is none. -/
def jsParseInt (o : Option (List Char)) : Option ℤ :=
  match o with
  | none => none
  | some l =>
      let t := l.dropWhile jsWs
      let (sign, body) : ℤ × List Char :=
        match t with
        | '-' :: r => (-1, r)
        | '+' :: r => (1, r)
        | _ => (1, t)
      let digits := body.takeWhile fun c => '0' ≤ c && c ≤ '9'
      if digits = [] then none else some (sign * digitsToNat digits)

/-- `NaN`-propagating addition on JS numbers. -/
def nAdd : Option ℚ → Option ℚ → Option ℚ
  | some a, some b => some (a + b)
  | _, _ => none

/-- `NaN`-propagating multiplication on JS numbers. -/
def nMul : Option ℚ → Option ℚ → Option ℚ
  | some a, some b => some (a * b)
  | _, _ => none

/-- `timestampToSeconds` from `src/main/index.ts`:
```js
const [time, ms] = timestamp.split(',');
const [hours, minutes, seconds] = time.split(':').map(Number);
return hours * 3600 + minutes * 60 + seconds + parseInt(ms) / 1000;
```
For every string input none of these operations throws, so the
surrounding `try`/`catch` (which would log and return `0`) is
unreachable; the function is therefore modelled as the `try` body alone,
with `NaN` as `none`. -/
def timestampToSeconds (timestamp : String) : Option ℚ :=
  let parts := splitOnChar ',' timestamp.toList
  let time := parts.headD []
  let ms := parts.get? 1
  let nums := (splitOnChar ':' time).map jsNumber
  let hours := (nums.get? 0).join
  let minutes := (nums.get? 1).join
  let seconds := (nums.get? 2).join
  nAdd (nAdd (nAdd (nMul hours (some 3600)) (nMul minutes (some 60))) seconds)
    ((jsParseInt ms).map fun z => (z : ℚ) / 1000)

/-- Model of JS `Math.round` on a finite number: round half toward `+∞`. -/
def jsRound (q : ℚ) : ℤ := ⌊q + 1 / 2⌋

/-- The `timestamps` object attached to a token by the engine
(`{from, to}` in SRT style `HH:MM:SS,mmm`); each field may be absent. -/
structure Timestamps where
  «from» : Option String
  «to» : Option String
deriving DecidableEq, Repr

/-- `RecognizedToken`: one entry of `result.transcription`; `timestamps`
itself may be absent (the handler guards with `?.`). -/
structure RawToken where
  text : String
  timestamps : Option Timestamps
deriving DecidableEq, Repr

/-- A sentence produced by the aggregation loop.  `start` and `end` are
JS numbers that may be `NaN` (hence `Option ℤ` after `Math.round`). -/
structure Segment where
  text : String
  start : Option ℤ
  «end» : Option ℤ
deriving DecidableEq, Repr

/-- The value returned from the `transcribe-audio` handler:
`{ text, tokens: sentences }`. -/
structure TranscriptionResult where
  text : String
  tokens : List Segment
deriving DecidableEq, Repr

/-- `const start = startToken?.from ? timestampToSeconds(startToken.from) : 0`
applied to a token: missing `timestamps`, missing `from`, and the empty
string are all falsy and give `0`. -/
def tokFromSec (t : RawToken) : Option ℚ :=
  match t.timestamps with
  | none => some 0
  | some ts =>
      match ts.«from» with
      | none => some 0
      | some s => if s = "" then some 0 else timestampToSeconds s

/-- `const end = endToken?.to ? timestampToSeconds(endToken.to) : 0`. -/
def tokToSec (t : RawToken) : Option ℚ :=
  match t.timestamps with
  | none => some 0
  | some ts =>
      match ts.«to» with
      | none => some 0
      | some s => if s = "" then some 0 else timestampToSeconds s

/-- `currentSentence.map(t => t.text).join('').trim().replace(/\s+/g, ' ')`. -/
def segText (buf : List RawToken) : String :=
  String.mk (collapseWs (trimChars ((buf.map fun t => t.text).foldr (· ++ ·) "").toList))

/-- `token.text.trim().match(/[.!?]$/)` is truthy exactly when the trimmed
text is non-empty and its last character is `.`, `!` or `?`. -/
def endsSentence (t : RawToken) : Bool :=
  match (trimChars t.text.toList).getLast? with
  | some c => c = '.' || c = '!' || c = '?'
  | none => false

/-- Body of the boundary branch of the `forEach` loop: compute `start` from
the first buffered token, `end` from the boundary token, build the cleaned
text, and emit a segment only when the text is non-empty. -/
def mkSegment (buf : List RawToken) (boundary : RawToken) : List Segment :=
  let start : Option ℚ :=
    match buf with
    | [] => some 0
    | b :: _ => tokFromSec b
  let stop : Option ℚ := tokToSec boundary
  let text := segText buf
  if text = "" then []
  else [{ text := text, start := start.map jsRound, «end» := stop.map jsRound }]

/-- The `transcription.forEach` loop of the handler: `buf` is
`currentSentence`; a boundary is a token whose trimmed text ends a
sentence, or the last token of the input (`index === transcription.length - 1`). -/
def aggregateGo (buf : List RawToken) : List RawToken → List Segment
  | [] => []
  | t :: rest =>
      let buf' := buf ++ [t]
      if endsSentence t || rest.isEmpty then
        mkSegment buf' t ++ aggregateGo [] rest
      else
        aggregateGo buf' rest

/-- The Segment Aggregator: tokens in, sentence segments out. -/
def aggregate (toks : List RawToken) : List Segment :=
  aggregateGo [] toks

/-- `{ text: sentences.map(s => s.text).join(' '), tokens: sentences }`. -/
def transcriptionResult (toks : List RawToken) : TranscriptionResult :=
  let sentences := aggregate toks
  { text := String.intercalate " " (sentences.map fun s => s.text)
    tokens := sentences }

/-! ## The `transcribe-audio` handler (Transcription Orchestrator)

The handler is an async function over external effects (file system,
ffmpeg, whisper).  It is embedded as a function of the outcomes of those
external operations: whether the readiness flag is set, whether the
ffmpeg conversion succeeds, whether inference succeeds and which tokens
and progress values the engine produces, and whether the two `unlinkSync`
calls fail.  The embedding records the value returned or thrown, the
temporary files still on disk afterwards, whether inference was invoked,
and the ordered event trace observed by the renderer. -/

/-- An event observable by the caller of the handler, in order. -/
inductive Ev where
  /-- `mainWindow.webContents.send('transcription-progress', p)` from `onProgress`. -/
  | progress (p : ℚ)
  /-- the handler resolves with its result -/
  | completed
  /-- the handler rethrows an error with the given message -/
  | failed (msg : String)
deriving DecidableEq, Repr

/-- The message of the error thrown when the readiness flag is false. -/
def notReadyMessage : String :=
  "Whisper model not initialized. Please wait for initialization to complete."

/-- The `recording-${Date.now()}.webm` temp file written in `Receiving`. -/
def webmFile : String := "recording.webm"

/-- The `${Date.now()}.wav` temp file produced by `convertToWav`. -/
def wavFile : String := "out.wav"

deriving instance DecidableEq for Except

/-- Everything observable about one `transcribe-audio` call. -/
structure RunResult where
  /-- the resolved result, or the message of the rethrown error -/
  outcome : Except String TranscriptionResult
  /-- temporary files still existing when the call returns -/
  files : List String
  /-- whether `transcribe` (whisper inference) was invoked -/
  inferenceAttempted : Bool
  /-- renderer-observable events, in order -/
  trace : List Ev
deriving DecidableEq, Repr

/-- The `transcribe-audio` IPC handler, `src/main/index.ts`:

* readiness guard: throw `notReadyMessage` before any file is touched;
* `Receiving`: write the webm temp file;
* `Normalizing` (`convertToWav`): on ffmpeg success the wav file exists and
  the webm input is unlinked inside the `end` handler (a failing unlink is
  logged and ignored); on ffmpeg error the promise rejects with the
  underlying error and no file is deleted;
* `Inferring`: `transcribe` forwards each engine progress value to the
  renderer in order; it resolves with the token list or rejects with the
  underlying engine error;
* `Aggregating`/`Completed`: the pure aggregation of the tokens;
* `catch`: logs and rethrows the error unchanged;
* `finally`: unlinks the wav temp file when it was created, inside its own
  `try`/`catch`, so a failing unlink never changes the outcome.  The webm
  file is *not* mentioned in the `finally` block. -/
def runTranscribe (ready : Bool) (conv : Except String Unit)
    (inf : Except String (List RawToken)) (progress : List ℚ)
    (webmUnlinkFails wavUnlinkFails : Bool) : RunResult :=
  if !ready then
    { outcome := .error notReadyMessage
      files := []
      inferenceAttempted := false
      trace := [.failed notReadyMessage] }
  else
    match conv with
    | .error e =>
        { outcome := .error e
          files := [webmFile]
          inferenceAttempted := false
          trace := [.failed e] }
    | .ok _ =>
        let afterConv : List String :=
          (if webmUnlinkFails then [webmFile] else []) ++ [wavFile]
        let afterCleanup : List String :=
          if wavUnlinkFails then afterConv else afterConv.erase wavFile
        match inf with
        | .error e =>
            { outcome := .error e
              files := afterCleanup
              inferenceAttempted := true
              trace := progress.map .progress ++ [.failed e] }
        | .ok toks =>
            { outcome := .ok (transcriptionResult toks)
              files := afterCleanup
              inferenceAttempted := true
              trace := progress.map .progress ++ [.completed] }

/-! ## The preload progress-listener registry (`src/preload/index.ts`)

`ipcRenderer` listener state for the `'transcription-progress'` channel.
Each evaluation of the arrow function
`(_event, progress) => callback(progress)` creates a *fresh* function
object; `ipcRenderer.on` registers that object, and `removeListener`
removes by reference identity.  Wrapper identity is modelled by a counter
`nextId`; a registry entry pairs a wrapper's identity with the callback it
forwards to (callbacks themselves are named by numbers). -/

structure PreloadState where
  /-- identity of the next wrapper closure to be allocated -/
  nextId : ℕ
  /-- registered `(wrapper identity, callback)` pairs, in registration order -/
  listeners : List (ℕ × ℕ)
deriving DecidableEq, Repr

/-- `ipcRenderer.removeListener(channel, f)`: removes at most one
registered listener whose identity is `f`. -/
def removeListener (w : ℕ) : List (ℕ × ℕ) → List (ℕ × ℕ)
  | [] => []
  | l :: rest => if l.1 = w then rest else l :: removeListener w rest

/-- `onTranscriptionProgress`: allocate a fresh wrapper forwarding to
`cb` and register it. -/
def onTranscriptionProgress (cb : ℕ) (s : PreloadState) : PreloadState :=
  { nextId := s.nextId + 1
    listeners := s.listeners ++ [(s.nextId, cb)] }

/-- `offTranscriptionProgress`: the source allocates *another* fresh
wrapper around `cb` and passes that to `removeListener`; the freshly
allocated wrapper is not one of the registered ones. -/
def offTranscriptionProgress (cb : ℕ) (s : PreloadState) : PreloadState :=
  { nextId := s.nextId + 1
    listeners := removeListener s.nextId s.listeners }

/-- Delivering one `'transcription-progress'` event: every registered
wrapper forwards the value to its callback, in registration order. -/
def emitProgress (p : ℚ) (s : PreloadState) : List (ℕ × ℚ) :=
  s.listeners.map fun l => (l.2, p)

/-! ## Auxiliary notions used by the statements and proofs -/

/-- JS `trim` at the `String` level. -/
def jsTrim (s : String) : String := String.mk (trimChars s.toList)

/-- The parsed start time of a token, with `0` for the (unreachable under
well-timedness) `NaN` case. -/
def getFrom (t : RawToken) : ℚ := (tokFromSec t).getD 0

/-- The parsed end time of a token, with `0` for the `NaN` case. -/
def getTo (t : RawToken) : ℚ := (tokToSec t).getD 0

/-- A token whose start and end parse to actual (non-`NaN`) values in the
right order, as the engine guarantees. -/
def tokOk (t : RawToken) : Bool :=
  match tokFromSec t, tokToSec t with
  | some a, some b => a ≤ b
  | _, _ => false

/-- Adjacent tokens in engine order: the first ends no later than the
second starts (both parse to actual values). -/
def pairOk (a b : RawToken) : Bool :=
  match tokToSec a, tokFromSec b with
  | some x, some y => x ≤ y
  | _, _ => false

/-- Every adjacent pair of the list satisfies `pairOk`. -/
def chainPairs : List RawToken → Bool
  | [] => true
  | [_] => true
  | a :: b :: rest => pairOk a b && chainPairs (b :: rest)

/-- The engine's guarantee on its output (spec §3: tokens are produced in
non-decreasing time order, with parseable timestamps). -/
def wellTimed (l : List RawToken) : Bool :=
  l.all tokOk && chainPairs l

/-- Default token used only to give `List.headD` a value. -/
def dTok : RawToken := ⟨"", none⟩

/-- `q` is a lower bound on the start time of the first token of `l`. -/
def LBq (q : ℚ) (l : List RawToken) : Prop :=
  l ≠ [] → q ≤ getFrom (l.headD dTok)

/-- Sortedness certificate for a segment list: every segment has actual
(non-`NaN`) rounded endpoints, its start is at least `lb` and at most its
end, and its end bounds the rest of the list. -/
def ChainOk (lb : ℤ) : List Segment → Prop
  | [] => True
  | s :: rest =>
      ∃ a b, s.start = some a ∧ s.«end» = some b ∧ lb ≤ a ∧ a ≤ b ∧ ChainOk b rest

/-- The two-token scenario of spec §8 (`"Hello"` / `" world."`). -/
def demoToks : List RawToken :=
  [⟨"Hello", some ⟨some "00:00:00,000", some "00:00:00,500"⟩⟩,
   ⟨" world.", some ⟨some "00:00:00,500", some "00:00:01,000"⟩⟩]

/-! ## Helper lemmas: trimming and whitespace collapsing -/

theorem string_mk_eq_empty (cs : List Char) : String.mk cs = "" ↔ cs = [] := by
  constructor
  · intro h
    have := congrArg String.data h
    simpa using this
  · intro h
    subst h
    rfl

theorem dropWhile_head_not (p : Char → Bool) :
    ∀ (l : List Char) (c : Char) (r : List Char), l.dropWhile p = c :: r → p c = false := by
  intro l
  induction l with
  | nil => intro c r h; simp [List.dropWhile] at h
  | cons a l ih =>
      intro c r h
      by_cases hp : p a
      · rw [List.dropWhile_cons, if_pos hp] at h
        exact ih c r h
      · rw [List.dropWhile_cons, if_neg hp] at h
        cases h
        simpa using hp

theorem trimR_cons_not_ws (c : Char) (r : List Char) (hc : jsWs c = false) :
    trimR (c :: r) = c :: trimR r := by
  simp [trimR, hc]

theorem trimChars_head (l : List Char) (h : trimChars l ≠ []) :
    ∃ c r, trimChars l = c :: r ∧ jsWs c = false := by
  unfold trimChars at h ⊢
  cases hm : l.dropWhile jsWs with
  | nil => rw [hm] at h; simp [trimR] at h
  | cons c r =>
      have hc := dropWhile_head_not jsWs l c r hm
      rw [trimR_cons_not_ws c r hc]
      exact ⟨c, trimR r, rfl, hc⟩

theorem collapseWs_cons_not_ws (c : Char) (m : List Char) (hc : jsWs c = false) :
    ∃ m', collapseWs (c :: m) = c :: m' := by
  cases m with
  | nil => exact ⟨[], by simp [collapseWs, hc]⟩
  | cons d rest => exact ⟨collapseWs (d :: rest), by simp [collapseWs, hc]⟩

theorem trimChars_cons_not_ws (c : Char) (m : List Char) (hc : jsWs c = false) :
    trimChars (c :: m) = c :: trimR m := by
  unfold trimChars
  rw [List.dropWhile_cons, if_neg (by simp [hc]), trimR_cons_not_ws c m hc]

/-- The cleaned sentence text still has a non-whitespace character after
another trim: trimming is idempotent on the emitted text. -/
theorem trimChars_collapse_ne_nil (l : List Char) (h : collapseWs (trimChars l) ≠ []) :
    trimChars (collapseWs (trimChars l)) ≠ [] := by
  have h0 : trimChars l ≠ [] := by
    intro e
    rw [e] at h
    simp [collapseWs] at h
  obtain ⟨c, r, he, hc⟩ := trimChars_head l h0
  obtain ⟨m', hm⟩ := collapseWs_cons_not_ws c r hc
  rw [he, hm, trimChars_cons_not_ws c m' hc]
  simp

/-! ## Helper lemmas: segments emitted by the aggregation loop -/

theorem mem_mkSegment {s : Segment} {buf : List RawToken} {t : RawToken}
    (h : s ∈ mkSegment buf t) :
    segText buf ≠ "" ∧
      s = { text := segText buf
            start := (match buf with
                      | [] => some 0
                      | b :: _ => tokFromSec b).map jsRound
            «end» := (tokToSec t).map jsRound } := by
  by_cases he : segText buf = ""
  · simp [mkSegment, he] at h
  · simp [mkSegment, he] at h
    exact ⟨he, h⟩

theorem mem_mkSegment_text {s : Segment} {buf : List RawToken} {t : RawToken}
    (h : s ∈ mkSegment buf t) : s.text ≠ "" ∧ jsTrim s.text ≠ "" := by
  obtain ⟨hne, hs⟩ := mem_mkSegment h
  have htext : s.text = segText buf := by rw [hs]
  have hlist :
      collapseWs (trimChars ((buf.map fun t => t.text).foldr (· ++ ·) "").toList) ≠ [] := by
    intro e
    apply hne
    unfold segText
    rw [e]
  constructor
  · rw [htext]; exact hne
  · rw [htext]
    intro e
    exact trimChars_collapse_ne_nil _ hlist ((string_mk_eq_empty _).mp e)

theorem mem_aggregateGo (toks : List RawToken) :
    ∀ (buf : List RawToken) (s : Segment), s ∈ aggregateGo buf toks →
      ∃ b t, s ∈ mkSegment b t := by
  induction toks with
  | nil => intro buf s h; simp [aggregateGo] at h
  | cons t rest ih =>
      intro buf s h
      by_cases hc : (endsSentence t || rest.isEmpty) = true
      · rw [aggregateGo, if_pos hc] at h
        rcases List.mem_append.mp h with h1 | h2
        · exact ⟨buf ++ [t], t, h1⟩
        · exact ih [] s h2
      · rw [aggregateGo, if_neg hc] at h
        exact ih (buf ++ [t]) s h

/-! ## Helper lemmas: time order -/

theorem tokOk_spec {t : RawToken} (h : tokOk t = true) :
    tokFromSec t = some (getFrom t) ∧ tokToSec t = some (getTo t) ∧ getFrom t ≤ getTo t := by
  unfold tokOk at h
  cases hf : tokFromSec t with
  | none => rw [hf] at h; simp at h
  | some a =>
      cases ht : tokToSec t with
      | none => rw [hf, ht] at h; simp at h
      | some b =>
          rw [hf, ht] at h
          simp only [decide_eq_true_eq] at h
          simp [getFrom, getTo, hf, ht, h]

theorem pairOk_spec {a b : RawToken} (h : pairOk a b = true) : getTo a ≤ getFrom b := by
  unfold pairOk at h
  cases hf : tokToSec a with
  | none => rw [hf] at h; simp at h
  | some x =>
      cases ht : tokFromSec b with
      | none => rw [hf, ht] at h; simp at h
      | some y =>
          rw [hf, ht] at h
          simp only [decide_eq_true_eq] at h
          simpa [getTo, getFrom, hf, ht] using h

theorem chainPairs_cons {t : RawToken} {l : List RawToken} (h : chainPairs (t :: l) = true) :
    chainPairs l = true ∧ ∀ u r, l = u :: r → pairOk t u = true := by
  cases l with
  | nil => exact ⟨rfl, fun u r he => by cases he⟩
  | cons u r =>
      rw [chainPairs, Bool.and_eq_true] at h
      exact ⟨h.2, fun u' r' he => by cases he; exact h.1⟩

theorem chainPairs_append {l m : List RawToken} (h : chainPairs (l ++ m) = true) :
    chainPairs l = true ∧ chainPairs m = true ∧
      ∀ a, l.getLast? = some a → ∀ b r, m = b :: r → pairOk a b = true := by
  induction l with
  | nil =>
      refine ⟨rfl, by simpa using h, ?_⟩
      intro a ha
      simp at ha
  | cons t l ih =>
      rw [List.cons_append] at h
      obtain ⟨h1, h2⟩ := chainPairs_cons h
      obtain ⟨hl, hm, hlink⟩ := ih h1
      refine ⟨?_, hm, ?_⟩
      · cases hl' : l with
        | nil => rfl
        | cons u r =>
            rw [chainPairs, Bool.and_eq_true]
            subst hl'
            exact ⟨h2 u (r ++ m) rfl, hl⟩
      · intro a ha b r hm'
        cases hl' : l with
        | nil =>
            subst hl'
            simp at ha
            subst ha
            exact h2 b r (by simp [hm'])
        | cons u r' =>
            subst hl'
            rw [List.getLast?_cons_cons] at ha
            exact hlink a ha b r hm'

theorem first_le_last (l : List RawToken) (hall : l.all tokOk = true)
    (hc : chainPairs l = true) :
    ∀ a, l.getLast? = some a → getFrom (l.headD dTok) ≤ getTo a := by
  induction l with
  | nil => intro a ha; simp at ha
  | cons t l ih =>
      intro a ha
      cases hl : l with
      | nil =>
          subst hl
          simp at ha
          subst ha
          simp only [List.headD_cons]
          have := tokOk_spec (t := t) (by simpa using hall)
          exact this.2.2
      | cons u r =>
          subst hl
          rw [List.getLast?_cons_cons] at ha
          rw [List.all_cons, Bool.and_eq_true] at hall
          obtain ⟨h1, h2⟩ := chainPairs_cons hc
          have ht := tokOk_spec (t := t) hall.1
          have hp := pairOk_spec (h2 u r rfl)
          have hrec := ih hall.2 h1 a ha
          simp only [List.headD_cons] at hrec ⊢
          exact le_trans ht.2.2 (le_trans hp hrec)

theorem jsRound_mono {a b : ℚ} (h : a ≤ b) : jsRound a ≤ jsRound b := by
  unfold jsRound
  exact Int.floor_le_floor (by linarith)

theorem ChainOk_mono :
    ∀ (segs : List Segment) {a b : ℤ}, a ≤ b → ChainOk b segs → ChainOk a segs
  | [], _, _, _, _ => trivial
  | _ :: _, _, _, hab, ⟨x, y, hx, hy, hbx, hxy, hrec⟩ =>
      ⟨x, y, hx, hy, le_trans hab hbx, hxy, hrec⟩

theorem ChainOk_bounds :
    ∀ (segs : List Segment) (lb : ℤ), ChainOk lb segs →
      ∀ s ∈ segs, ∃ a b, s.start = some a ∧ s.«end» = some b ∧ a ≤ b := by
  intro segs
  induction segs with
  | nil => intro lb _ s hs; simp at hs
  | cons u rest ih =>
      intro lb h s hs
      obtain ⟨a, b, ha, hb, _, hab, hrec⟩ := h
      rcases List.mem_cons.mp hs with rfl | hs'
      · exact ⟨a, b, ha, hb, hab⟩
      · exact ih b hrec s hs'

theorem ChainOk_noOverlap :
    ∀ (segs : List Segment) (lb : ℤ), ChainOk lb segs →
      List.Chain' (fun s s' => ∀ b a', s.«end» = some b → s'.start = some a' → b ≤ a') segs := by
  intro segs
  induction segs with
  | nil => intro lb _; exact List.chain'_nil
  | cons u rest ih =>
      intro lb h
      obtain ⟨a, b, ha, hb, _, hab, hrec⟩ := h
      rw [List.chain'_cons']
      refine ⟨?_, ih b hrec⟩
      intro v hv b' a' hb' ha'
      cases rest with
      | nil => simp at hv
      | cons w rest' =>
          simp at hv
          subst hv
          obtain ⟨x, y, hx, hy, hbx, _, _⟩ := hrec
          rw [hb] at hb'
          cases hb'
          rw [hx] at ha'
          cases ha'
          exact hbx

theorem ChainOk_startsMono :
    ∀ (segs : List Segment) (lb : ℤ), ChainOk lb segs →
      List.Chain' (fun s s' => ∀ a a', s.start = some a → s'.start = some a' → a ≤ a') segs := by
  intro segs
  induction segs with
  | nil => intro lb _; exact List.chain'_nil
  | cons u rest ih =>
      intro lb h
      obtain ⟨a, b, ha, hb, _, hab, hrec⟩ := h
      rw [List.chain'_cons']
      refine ⟨?_, ih b hrec⟩
      intro v hv a0 a' ha0 ha'
      cases rest with
      | nil => simp at hv
      | cons w rest' =>
          simp at hv
          subst hv
          obtain ⟨x, y, hx, hy, hbx, _, _⟩ := hrec
          rw [ha] at ha0
          cases ha0
          rw [hx] at ha'
          cases ha'
          exact le_trans hab hbx

theorem headD_append_cons (buf : List RawToken) (t : RawToken) (rest : List RawToken) :
    (buf ++ t :: rest).headD dTok = (buf ++ [t]).headD dTok := by
  cases buf <;> simp

theorem mkSegment_eq_nil {buf : List RawToken} {t : RawToken} (he : segText buf = "") :
    mkSegment buf t = [] := by
  simp [mkSegment, he]

theorem mkSegment_eq_cons {buf : List RawToken} {t : RawToken} (he : segText buf ≠ "") :
    mkSegment buf t =
      [{ text := segText buf
         start := (match buf with
                   | [] => some (0 : ℚ)
                   | b :: _ => tokFromSec b).map jsRound
         «end» := (tokToSec t).map jsRound }] := by
  simp [mkSegment, he]

/-- Start time of the segment built from a nonempty buffer `buf ++ [t]`:
it is the parsed start of the buffer's first token. -/
theorem mkSegment_start_eq (buf : List RawToken) (t : RawToken) :
    (match buf ++ [t] with
      | [] => some (0 : ℚ)
      | b :: _ => tokFromSec b) = tokFromSec ((buf ++ [t]).headD dTok) := by
  cases buf <;> simp

/-- Main induction: under well-timed input, the segment stream produced by
the aggregation loop is chained above any lower bound on the first
remaining token. -/
theorem aggregateGo_chain (rest : List RawToken) :
    ∀ (buf : List RawToken) (q : ℚ),
      (buf ++ rest).all tokOk = true →
      chainPairs (buf ++ rest) = true →
      LBq q (buf ++ rest) →
      ChainOk (jsRound q) (aggregateGo buf rest) := by
  induction rest with
  | nil =>
      intro buf q _ _ _
      simp [aggregateGo, ChainOk]
  | cons t rest ih =>
      intro buf q hall hc hlb
      have hassoc : buf ++ t :: rest = (buf ++ [t]) ++ rest := by simp
      rw [hassoc] at hall hc
      rw [List.all_append, Bool.and_eq_true] at hall
      obtain ⟨hallL, hallR⟩ := hall
      obtain ⟨hcL, hcR, hlink⟩ := chainPairs_append hc
      have hlast : (buf ++ [t]).getLast? = some t := by simp
      have htokt : tokOk t = true := by
        rw [List.all_append, Bool.and_eq_true] at hallL
        simpa using hallL.2
      have hts := tokOk_spec htokt
      -- head of the current sentence
      have hh : tokOk ((buf ++ [t]).headD dTok) = true := by
        cases hb : buf with
        | nil => simpa using htokt
        | cons b l =>
            rw [List.all_append, Bool.and_eq_true] at hallL
            have : tokOk b = true := by
              rw [hb, List.all_cons, Bool.and_eq_true] at hallL
              · exact hallL.1.1
            simpa [hb] using this
      have hhs := tokOk_spec hh
      have hfl : getFrom ((buf ++ [t]).headD dTok) ≤ getTo t :=
        first_le_last (buf ++ [t]) hallL hcL t hlast
      have hqh : q ≤ getFrom ((buf ++ [t]).headD dTok) := by
        have := hlb (by simp)
        rwa [headD_append_cons] at this
      -- the tail run, restarted with an empty buffer and bound `getTo t`
      have hrec : ChainOk (jsRound (getTo t)) (aggregateGo [] rest) := by
        apply ih [] (getTo t) (by simpa using hallR) (by simpa using hcR)
        intro hne
        cases hr : rest with
        | nil => exact absurd hr hne
        | cons u r =>
            have hp := hlink t hlast u r hr
            simpa [hr] using pairOk_spec hp
      by_cases hcond : (endsSentence t || rest.isEmpty) = true
      · rw [aggregateGo, if_pos hcond]
        by_cases he : segText (buf ++ [t]) = ""
        · rw [mkSegment_eq_nil he]
          simp only [List.nil_append]
          exact ChainOk_mono _ (jsRound_mono (le_trans hqh hfl)) hrec
        · rw [mkSegment_eq_cons he]
          refine ⟨jsRound (getFrom ((buf ++ [t]).headD dTok)), jsRound (getTo t), ?_, ?_, ?_, ?_, ?_⟩
          · show ((match buf ++ [t] with
                | [] => some (0 : ℚ)
                | b :: _ => tokFromSec b).map jsRound) = _
            rw [mkSegment_start_eq, hhs.1]
            rfl
          · show ((tokToSec t).map jsRound) = _
            rw [hts.2.1]
            rfl
          · exact jsRound_mono hqh
          · exact jsRound_mono hfl
          · simpa using hrec
      · rw [aggregateGo, if_neg hcond]
        apply ih (buf ++ [t]) q (by rw [List.all_append, Bool.and_eq_true]; exact ⟨hallL, hallR⟩) hc
        intro _
        rw [← hassoc]
        exact hlb (by simp)

/-! ## Claim theorems -/

/-- **C1.** For the well-formed engine timestamp `"00:01:02,500"`,
`timestampToSeconds` returns `62.5` as the claim states; but for the
malformed timestamp `"00:01:02"` (missing comma) it returns `NaN`
(modelled `none`), not `0`: `parseInt(undefined)` is `NaN` and `NaN`
propagates through the sum.  No string input makes the `try` body throw,
so the `catch` that would log and return `0` is unreachable, and nothing
is logged.  This theorem evaluates the code at the failing input. -/
theorem timestampToSeconds_missing_comma :
    timestampToSeconds "00:01:02,500" = some (125 / 2) ∧
    timestampToSeconds "00:01:02" = none ∧
    timestampToSeconds "00:01:02" ≠ some 0 := by decide

/-- **C2 (counterexample).** A call in which conversion fails with message
`"demux"`: the call does fail with the conversion error and attempts no
inference, but the already-written raw input temporary file is *not*
removed — it is still present when the call returns, refuting the claim
that all temporary files are deleted on every terminal outcome. -/
theorem transcribe_convFail_webm_left :
    (runTranscribe true (.error "demux") (.ok []) [] false false).outcome = .error "demux" ∧
    (runTranscribe true (.error "demux") (.ok []) [] false false).inferenceAttempted = false ∧
    webmFile ∈ (runTranscribe true (.error "demux") (.ok []) [] false false).files := by
  decide

/-- **C2 (amended).** If conversion fails, the call fails with the
conversion error, no inference is attempted, and the raw input temporary
file is left in place (no deletion of it is attempted on this path); the
WAV temporary file, when created, is deleted on every terminal outcome
unless its deletion itself fails; deletion failures (of either file)
never change the call's outcome. -/
theorem transcribe_cleanup (inf : Except String (List RawToken)) (progress : List ℚ)
    (wu wv : Bool) :
    (∀ e, runTranscribe true (.error e) inf progress wu wv =
        ⟨.error e, [webmFile], false, [.failed e]⟩) ∧
    (runTranscribe true (.ok ()) inf progress wu false).files =
        (if wu then [webmFile] else []) ∧
    (runTranscribe true (.ok ()) inf progress wu true).files =
        (if wu then [webmFile] else []) ++ [wavFile] ∧
    (∀ ready conv,
        (runTranscribe ready conv inf progress wu wv).outcome =
          (runTranscribe ready conv inf progress false false).outcome) := by
  refine ⟨fun e => rfl, ?_, ?_, ?_⟩
  · cases inf <;> cases wu <;> simp [runTranscribe, List.erase, webmFile, wavFile]
  · cases inf <;> cases wu <;> simp [runTranscribe]
  · intro ready conv
    cases ready <;> cases conv <;> cases inf <;> rfl

/-- **C3.** Registering a callback and then de-registering the same
callback reference does *not* remove the listener: `offTranscriptionProgress`
wraps the callback in a freshly created wrapper function and passes that
never-registered wrapper to `removeListener`, which therefore removes
nothing.  Starting from the empty registry, after `on cb` then `off cb`
the wrapper for `cb` is still registered and a progress event is still
delivered to `cb`, refuting the claim. -/
theorem offTranscriptionProgress_leaks :
    (offTranscriptionProgress 7 (onTranscriptionProgress 7 ⟨0, []⟩)).listeners = [(0, 7)] ∧
    emitProgress (1/2) (offTranscriptionProgress 7 (onTranscriptionProgress 7 ⟨0, []⟩)) =
      [(7, 1/2)] := by
  decide

/-- **C4.** When the readiness flag is false, the call fails immediately
with the not-ready error (the guard precedes all file writes): no
temporary file is created, no inference is attempted, and the only
observable event is the failure — regardless of every other input. -/
theorem transcribe_notReady (conv : Except String Unit) (inf : Except String (List RawToken))
    (progress : List ℚ) (wu wv : Bool) :
    runTranscribe false conv inf progress wu wv =
      ⟨.error notReadyMessage, [], false, [.failed notReadyMessage]⟩ := rfl

/-- **C5 (counterexample).** The claim quantifies over *every* input token
sequence; for a single token whose `from` is later than its `to`
(`00:00:05` to `00:00:01`), the emitted segment has `start = 5 > 1 = end`,
refuting `start ≤ end`. -/
theorem aggregate_start_le_end_cex :
    ∃ s ∈ aggregate [⟨"a.", some ⟨some "00:00:05,000", some "00:00:01,000"⟩⟩],
      s.start = some 5 ∧ s.«end» = some 1 ∧ ¬((5 : ℤ) ≤ 1) := by
  decide

/-- **C5 (amended).** For every input token sequence that is *well-timed*
(all timestamps parse to actual values, each token's start is at most its
end, and consecutive tokens do not move backwards in time — the order the
engine guarantees), every emitted segment has actual rounded endpoints
with `start ≤ end`, and segments are emitted in source order, each ending
no later than the next one starts. -/
theorem aggregate_start_le_end (toks : List RawToken) (h : wellTimed toks = true) :
    (∀ s ∈ aggregate toks, ∃ a b, s.start = some a ∧ s.«end» = some b ∧ a ≤ b) ∧
    List.Chain' (fun s s' => ∀ b a', s.«end» = some b → s'.start = some a' → b ≤ a')
      (aggregate toks) := by
  rw [wellTimed, Bool.and_eq_true] at h
  have main := aggregateGo_chain toks [] (getFrom (toks.headD dTok)) h.1 h.2
    (fun _ => le_refl _)
  exact ⟨ChainOk_bounds _ _ main, ChainOk_noOverlap _ _ main⟩

theorem aggregate_start_le_end_witness :
    wellTimed demoToks = true ∧
    ((∀ s ∈ aggregate demoToks, ∃ a b, s.start = some a ∧ s.«end» = some b ∧ a ≤ b) ∧
     List.Chain' (fun s s' => ∀ b a', s.«end» = some b → s'.start = some a' → b ≤ a')
       (aggregate demoToks)) :=
  ⟨by decide, aggregate_start_le_end demoToks (by decide)⟩

/-- **C6 (counterexample).** Over *all* token sequences the time-order
property fails: two one-token sentences whose timestamps decrease produce
segments with starts `5` then `1`. -/
theorem aggregate_starts_mono_cex :
    aggregate [⟨"a.", some ⟨some "00:00:05,000", some "00:00:06,000"⟩⟩,
               ⟨"b.", some ⟨some "00:00:01,000", some "00:00:02,000"⟩⟩] =
      [⟨"a.", some 5, some 6⟩, ⟨"b.", some 1, some 2⟩] ∧ ¬((5 : ℤ) ≤ 1) := by
  decide

/-- **C6 (amended).** For every *well-timed* input token sequence (the
order the engine guarantees), the aggregator's output preserves time
order: each emitted segment's start is at most the next segment's start. -/
theorem aggregate_starts_mono (toks : List RawToken) (h : wellTimed toks = true) :
    List.Chain' (fun s s' => ∀ a a', s.start = some a → s'.start = some a' → a ≤ a')
      (aggregate toks) := by
  rw [wellTimed, Bool.and_eq_true] at h
  have main := aggregateGo_chain toks [] (getFrom (toks.headD dTok)) h.1 h.2
    (fun _ => le_refl _)
  exact ChainOk_startsMono _ _ main

theorem aggregate_starts_mono_witness :
    wellTimed demoToks = true ∧
    List.Chain' (fun s s' => ∀ a a', s.start = some a → s'.start = some a' → a ≤ a')
      (aggregate demoToks) :=
  ⟨by decide, aggregate_starts_mono demoToks (by decide)⟩

/-- **C7.** Every emitted segment has non-empty text that still has a
non-whitespace character after trimming; a sentence buffer whose cleaned
text is empty (including the final forced-close buffer) emits no segment;
and the empty token sequence yields the empty segment list and empty
joined text. -/
theorem aggregate_nonempty_text :
    (∀ toks, ∀ s ∈ aggregate toks, s.text ≠ "" ∧ jsTrim s.text ≠ "") ∧
    (∀ buf t, segText buf = "" → mkSegment buf t = []) ∧
    transcriptionResult [] = ⟨"", []⟩ := by
  refine ⟨?_, ?_, by decide⟩
  · intro toks s hs
    obtain ⟨b, t, hm⟩ := mem_aggregateGo toks [] s hs
    exact mem_mkSegment_text hm
  · intro buf t he
    exact mkSegment_eq_nil he

theorem aggregate_nonempty_text_witness :
    (⟨"Hello world.", some 0, some 1⟩ : Segment) ∈ aggregate demoToks ∧
    (Segment.text ⟨"Hello world.", some 0, some 1⟩ ≠ "" ∧
      jsTrim (Segment.text ⟨"Hello world.", some 0, some 1⟩) ≠ "") :=
  ⟨by decide, aggregate_nonempty_text.1 demoToks ⟨"Hello world.", some 0, some 1⟩ (by decide)⟩

/-- **C8.** A sentence boundary is declared exactly when the token's
trimmed text ends in `.`, `!` or `?` (first and second loop equations) or
the token is the last of the input (forced close, second equation);
otherwise the buffer keeps growing (third equation).  The two spec
scenarios: `"Hello"` + `" world."` yield the single segment
`{text: "Hello world.", start: 0, end: 1}`, and the single unpunctuated
token yields `{text: "No punctuation here", start: 0, end: 2}`. -/
theorem aggregate_boundary_scenarios :
    (∀ buf t rest, endsSentence t = true →
        aggregateGo buf (t :: rest) = mkSegment (buf ++ [t]) t ++ aggregateGo [] rest) ∧
    (∀ buf t, aggregateGo buf [t] = mkSegment (buf ++ [t]) t) ∧
    (∀ buf t rest, endsSentence t = false → rest ≠ [] →
        aggregateGo buf (t :: rest) = aggregateGo (buf ++ [t]) rest) ∧
    aggregate demoToks = [⟨"Hello world.", some 0, some 1⟩] ∧
    aggregate [⟨"No punctuation here", some ⟨some "00:00:00,000", some "00:00:02,000"⟩⟩] =
      [⟨"No punctuation here", some 0, some 2⟩] := by
  refine ⟨?_, ?_, ?_, by decide, by decide⟩
  · intro buf t rest ht
    rw [aggregateGo, if_pos (by simp [ht])]
  · intro buf t
    rw [aggregateGo, if_pos (by simp)]
    simp [aggregateGo]
  · intro buf t rest ht hr
    cases rest with
    | nil => exact absurd rfl hr
    | cons u r =>
        rw [aggregateGo, if_neg (by simp [ht, List.isEmpty])]

theorem aggregate_boundary_scenarios_witness :
    (endsSentence ⟨"Hi.", none⟩ = true ∧
      aggregateGo [] [⟨"Hi.", none⟩, dTok] =
        mkSegment [⟨"Hi.", none⟩] ⟨"Hi.", none⟩ ++ aggregateGo [] [dTok]) ∧
    (endsSentence ⟨"Hello", none⟩ = false ∧ ([dTok] : List RawToken) ≠ [] ∧
      aggregateGo [] [⟨"Hello", none⟩, dTok] = aggregateGo [⟨"Hello", none⟩] [dTok]) :=
  ⟨⟨by decide, aggregate_boundary_scenarios.1 [] ⟨"Hi.", none⟩ [dTok] (by decide)⟩,
   ⟨by decide, by decide,
     aggregate_boundary_scenarios.2.2.1 [] ⟨"Hello", none⟩ [dTok] (by decide) (by decide)⟩⟩

/-- **C9.** Progress forwarding: for every engine-emitted progress
sequence, the renderer-observable trace of a call that reaches inference
is exactly that sequence, in order, with no value dropped, duplicated or
reordered, followed by the terminal event — so every progress value is
delivered before the call completes or fails.  In particular the
spec's scenario `[0.1, 0.4, 0.9, 1.0]` is forwarded verbatim. -/
theorem transcribe_progress_order (inf : Except String (List RawToken)) (progress : List ℚ)
    (wu wv : Bool) :
    (runTranscribe true (.ok ()) inf progress wu wv).trace =
      progress.map Ev.progress ++
        [match inf with
         | .ok _ => Ev.completed
         | .error e => Ev.failed e] ∧
    (runTranscribe true (.ok ()) (.ok []) [1/10, 2/5, 9/10, 1] false false).trace =
      [.progress (1/10), .progress (2/5), .progress (9/10), .progress 1, .completed] := by
  refine ⟨?_, by decide⟩
  cases inf <;> rfl

/-- **C10 (counterexample).** A conversion failure and an inference
failure with the same underlying message surface *identical* outcomes:
errors are rethrown unwrapped, with no stage name attached, so the
boundary cannot distinguish a `ConversionError` from an `InferenceError`. -/
theorem conv_inf_same_surface :
    (runTranscribe true (.error "boom") (.ok []) [] false false).outcome = .error "boom" ∧
    (runTranscribe true (.ok ()) (.error "boom") [] false false).outcome = .error "boom" := by
  decide

/-- **C10 (amended).** Not-ready failures carry the fixed distinguishing
message; conversion and inference failures are rethrown carrying only the
underlying cause, with no stage context added (so they are mutually
indistinguishable at the boundary); and no failure is swallowed: every
non-cleanup error propagates to the caller unchanged, while cleanup
failures never alter the outcome (see the outcome-invariance part of the
cleanup theorem). -/
theorem transcribe_error_surface (conv : Except String Unit)
    (inf : Except String (List RawToken)) (progress : List ℚ) (wu wv : Bool) :
    (runTranscribe false conv inf progress wu wv).outcome = .error notReadyMessage ∧
    (∀ e, conv = .error e → (runTranscribe true conv inf progress wu wv).outcome = .error e) ∧
    (∀ e, conv = .ok () → inf = .error e →
        (runTranscribe true conv inf progress wu wv).outcome = .error e) ∧
    (∀ toks, conv = .ok () → inf = .ok toks →
        (runTranscribe true conv inf progress wu wv).outcome =
          .ok (transcriptionResult toks)) := by
  refine ⟨rfl, ?_, ?_, ?_⟩
  · intro e he
    subst he
    rfl
  · intro e hc hi
    subst hc
    subst hi
    cases wu <;> cases wv <;> rfl
  · intro toks hc hi
    subst hc
    subst hi
    cases wu <;> cases wv <;> rfl

theorem transcribe_error_surface_witness :
    ((Except.error "demux" : Except String Unit) = Except.error "demux") ∧
    (runTranscribe true (.error "demux") (.ok []) [] false false).outcome =
      .error "demux" :=
  ⟨rfl, (transcribe_error_surface (.error "demux") (.ok []) [] false false).2.1 "demux" rfl⟩

end LocalAI
